import Mathlib

/-!
Verification of the threaded mark-compact collector in
`src/rts/motoko-rts/src/gc/mark_compact.rs`.

The heap is modelled as a total map from 32-bit word addresses to 32-bit
words.  Pure Rust functions become Lean functions on this memory; the
while loop in `unthread` becomes a fuel-indexed recursion (the theorems
hold for every sufficient fuel).  Helpers that live in other files of the
repository (`types.rs`, `visitor.rs`, `bitmap.rs`) are modelled from the
specification and are marked as such in their doc comments.
-/

namespace MarkCompact

/-- A machine memory: one 32-bit word per address. -/
abbrev Mem : Type := Nat → Nat

/-- Write the word `v` at address `a`. -/
def store (m : Mem) (a v : Nat) : Mem := fun x => if x = a then v else m x

@[simp] theorem store_self (m : Mem) (a v : Nat) : store m a v a = v := by
  simp [store]

theorem store_of_ne (m : Mem) (a v x : Nat) (h : x ≠ a) : store m a v x = m x := by
  simp [store, h]

/-- Modelled from the spec: the word size of the machine (32-bit words). -/
def wordBound : Nat := 2 ^ 32

/-- Modelled from the spec: the skewed ("biased") pointer encoding.  A raw
address is skewed by subtracting one (wrapping on 32 bits); `unskew`
recovers the raw target address. -/
def skew (p : Nat) : Nat := (p + (wordBound - 1)) % wordBound

/-- Modelled from the spec: recover the raw address from a skewed pointer
(wrapping add of one on 32 bits). -/
def unskew (p : Nat) : Nat := (p + 1) % wordBound

theorem unskew_skew (p : Nat) (h : p < wordBound) : unskew (skew p) = p := by
  simp only [skew, unskew, wordBound] at *
  omega

/-- Modelled from the spec: the smallest real object tag (`types.rs` is not
part of the excerpt; the spec reserves for tags a small low range of
integers).  The concrete value is illustrative: every theorem below depends
only on the ordering `TAG_OBJECT ≤ TAG_NULL`. -/
def TAG_OBJECT : Nat := 1

/-- Modelled from the spec: the tag sentinel — the largest real object tag.
Any header value above it is treated as a threaded field address. -/
def TAG_NULL : Nat := 14

/-- `thread` (mark_compact.rs lines 250-256): store the header of the pointed
object into the field (as a raw word wrapped in `SkewedPtr`), and store the
field address into the header of the pointed object. -/
def thread (m : Mem) (field : Nat) : Mem :=
  let pointed := unskew (m field)
  let pointed_header := m pointed
  store (store m field pointed_header) pointed field

/-- The while loop of `unthread` (mark_compact.rs lines 262-268), indexed by
fuel: while the header value is above `TAG_NULL`, treat it as a field
address, save the content of that field, overwrite the field with the
skewed `new_loc`, and continue with the saved value.  Returns the final
memory and the final header value. -/
def unthreadGo : Nat → Mem → Nat → Nat → Mem × Nat
  | 0, m, _, header => (m, header)
  | fuel + 1, m, new_loc, header =>
    if TAG_NULL < header then
      let tmp := m header
      unthreadGo fuel (store m header (skew new_loc)) new_loc tmp
    else (m, header)

/-- `unthread` (mark_compact.rs lines 259-272): run the chain walk starting
from the header of `obj`, then store the final header value (the original
tag) back into the header of `obj`. -/
def unthread (fuel : Nat) (m : Mem) (obj new_loc : Nat) : Mem :=
  let r := unthreadGo fuel m new_loc (m obj)
  store r.1 obj r.2

/-- `threadAll` folds `thread` over a list of field addresses: the act of
threading N references onto one object, in order. -/
def threadAll (m : Mem) (fs : List Nat) : Mem := fs.foldl thread m

/-- A finite threading chain: starting from the value `start`, the listed
field addresses are linked in order (each holds the next link) and the
last one holds the terminal value `t`. -/
def chainFrom (m : Mem) : Nat → List Nat → Nat → Bool
  | start, [], t => start == t
  | start, l :: ls, t => start == l && chainFrom m (m l) ls t

theorem chainFrom_store (ls : List Nat) : ∀ (m : Mem) (s t x v : Nat), x ∉ ls →
    chainFrom m s ls t = true → chainFrom (store m x v) s ls t = true := by
  induction ls with
  | nil => intro m s t x v _ h; simpa [chainFrom] using h
  | cons l ls ih =>
    intro m s t x v hx h
    simp only [chainFrom, Bool.and_eq_true, beq_iff_eq] at h ⊢
    refine ⟨h.1, ?_⟩
    have hlx : l ≠ x := by
      intro he; exact hx (by simp [← he])
    have hxl : x ∉ ls := fun hm => hx (List.mem_cons_of_mem _ hm)
    rw [store_of_ne m x v l hlx]
    exact ih m (m l) t x v hxl h.2

/-- The `unthread` loop walks exactly a finite chain: it overwrites every
link with the skewed `new_loc`, leaves everything else untouched, and
returns the terminal value of the chain. -/
theorem unthreadGo_chain (ls : List Nat) : ∀ (m : Mem) (s t new_loc k : Nat),
    chainFrom m s ls t = true → ls.Nodup → (∀ l ∈ ls, TAG_NULL < l) → t ≤ TAG_NULL →
    unthreadGo (ls.length + k) m new_loc s =
      ((fun a => if a ∈ ls then skew new_loc else m a), t) := by
  induction ls with
  | nil =>
    intro m s t new_loc k hch _ _ ht
    have hst : s = t := by simpa [chainFrom] using hch
    subst hst
    have hmem : (fun a => if a ∈ ([] : List Nat) then skew new_loc else m a) = m := by
      funext a; simp
    cases k with
    | zero => simp [unthreadGo, hmem]
    | succ k => simp [unthreadGo, Nat.not_lt.mpr ht, hmem]
  | cons l ls ih =>
    intro m s t new_loc k hch hnd hhi ht
    simp only [chainFrom, Bool.and_eq_true, beq_iff_eq] at hch
    obtain ⟨hsl, hch⟩ := hch
    subst hsl
    have hl : TAG_NULL < s := hhi s (List.mem_cons_self _ _)
    have hlnot : s ∉ ls := (List.nodup_cons.mp hnd).1
    have hlen : (s :: ls).length + k = (ls.length + k) + 1 := by simp; omega
    rw [hlen]
    simp only [unthreadGo, if_pos hl]
    have hch' : chainFrom (store m s (skew new_loc)) (m s) ls t = true :=
      chainFrom_store ls m (m s) t s (skew new_loc) hlnot hch
    have hrec := ih (store m s (skew new_loc)) (m s) t new_loc k hch'
      (List.nodup_cons.mp hnd).2 (fun l hl => hhi l (List.mem_cons_of_mem _ hl)) ht
    rw [hrec]
    refine Prod.ext ?_ rfl
    funext a
    by_cases has : a = s
    · subst has
      simp [hlnot]
    · by_cases hals : a ∈ ls
      · simp [hals]
      · have : a ∉ s :: ls := by simp [has, hals]
        simp [hals, this, store_of_ne m s (skew new_loc) a has]

/-- Threading a list of distinct fields, each of which points at `obj`,
builds in the memory exactly the reversed list as a chain hanging off the
header of `obj`, terminated by the original header value; no address
outside the fields and the header of `obj` is modified. -/
theorem threadAll_chain (obj : Nat) (hobj : obj < wordBound) :
    ∀ (fs : List Nat) (m : Mem),
    fs.Nodup → (∀ f ∈ fs, f ≠ obj) → (∀ f ∈ fs, m f = skew obj) →
    chainFrom (threadAll m fs) (threadAll m fs obj) fs.reverse (m obj) = true
    ∧ (∀ a, a ∉ fs → a ≠ obj → threadAll m fs a = m a) := by
  intro fs
  induction fs using List.reverseRecOn with
  | nil =>
    intro m _ _ _
    constructor
    · simp [threadAll, chainFrom]
    · intro a _ _; simp [threadAll]
  | append_singleton gs f ihg =>
    intro m hnd hne hpt
    have hndg : gs.Nodup := (List.nodup_append.mp hnd).1
    have hfg : f ∉ gs := by
      intro hmem
      have := (List.nodup_append.mp hnd).2.2
      exact this hmem (by simp)
    have hneg : ∀ g ∈ gs, g ≠ obj := fun g hg => hne g (by simp [hg])
    have hptg : ∀ g ∈ gs, m g = skew obj := fun g hg => hpt g (by simp [hg])
    have hfo : f ≠ obj := hne f (by simp)
    obtain ⟨hchain, hframe⟩ := ihg m hndg hneg hptg
    have hta : threadAll m (gs ++ [f]) = thread (threadAll m gs) f := by
      simp [threadAll]
    have hMf : threadAll m gs f = skew obj := by
      rw [hframe f hfg hfo]; exact hpt f (by simp)
    have hth : thread (threadAll m gs) f =
        store (store (threadAll m gs) f (threadAll m gs obj)) obj f := by
      simp only [thread, hMf, unskew_skew obj hobj]
    rw [hta, hth]
    set M := threadAll m gs with hM
    constructor
    · have hrev : (gs ++ [f]).reverse = f :: gs.reverse := by simp
      rw [hrev]
      simp only [chainFrom, Bool.and_eq_true, beq_iff_eq]
      have h1 : store (store M f (M obj)) obj f obj = f := store_self _ _ _
      have h2 : store (store M f (M obj)) obj f f = M obj := by
        rw [store_of_ne _ _ _ f hfo, store_self]
      refine ⟨h1, ?_⟩
      rw [h2]
      have hfrev : f ∉ gs.reverse := by simpa using hfg
      have horev : obj ∉ gs.reverse := by
        simp only [List.mem_reverse]
        intro hmem; exact hneg obj hmem rfl
      exact chainFrom_store gs.reverse (store M f (M obj)) (M obj) (m obj) obj f horev
        (chainFrom_store gs.reverse M (M obj) (m obj) f (M obj) hfrev hchain)
    · intro a ha hao
      have haf : a ≠ f := by intro he; exact ha (by simp [he])
      have hag : a ∉ gs := by intro hmem; exact ha (by simp [hmem])
      rw [store_of_ne _ _ _ a hao, store_of_ne _ _ _ a haf]
      exact hframe a hag hao

/-- C1: threading round-trip.  For a single object `obj` with any number of
distinct referencing fields threaded onto it (in any order), one call of
`unthread obj X` leaves every threaded field holding the skewed address
`X` and restores the header word of `obj` to the value it held immediately
before the first `thread` call. -/
theorem thread_unthread_roundtrip (m : Mem) (obj new_loc : Nat) (fs : List Nat)
    (hnd : fs.Nodup) (hne : ∀ f ∈ fs, f ≠ obj) (hpt : ∀ f ∈ fs, m f = skew obj)
    (hhi : ∀ f ∈ fs, TAG_NULL < f) (htag : m obj ≤ TAG_NULL) (hobj : obj < wordBound)
    (fuel : Nat) (hfuel : fs.length ≤ fuel) :
    unthread fuel (threadAll m fs) obj new_loc obj = m obj
    ∧ ∀ f ∈ fs, unthread fuel (threadAll m fs) obj new_loc f = skew new_loc := by
  obtain ⟨k, hk⟩ := Nat.exists_eq_add_of_le hfuel
  obtain ⟨hchain, _⟩ := threadAll_chain obj hobj fs m hnd hne hpt
  have hrevnd : fs.reverse.Nodup := by simpa using hnd
  have hrevhi : ∀ l ∈ fs.reverse, TAG_NULL < l := by
    intro l hl; exact hhi l (by simpa using hl)
  have hgo := unthreadGo_chain fs.reverse (threadAll m fs) (threadAll m fs obj)
    (m obj) new_loc k hchain hrevnd hrevhi htag
  have hlen : fuel = fs.reverse.length + k := by simpa using hk
  have hunfold : unthread fuel (threadAll m fs) obj new_loc =
      store (fun a => if a ∈ fs.reverse then skew new_loc else threadAll m fs a)
        obj (m obj) := by
    simp only [unthread, hlen, hgo]
  rw [hunfold]
  constructor
  · exact store_self _ _ _
  · intro f hf
    have hfo : f ≠ obj := hne f hf
    rw [store_of_ne _ _ _ f hfo]
    simp [hf]

def c1mem : Mem := fun a =>
  if a = 100 then 3 else if a = 200 then skew 100 else if a = 300 then skew 100 else 0

/-- C1 witness: two fields (at 200 and 300, both holding the skewed address
of the object at 100, whose header is the tag 3) are threaded; unthreading
to 60 rewrites both fields to the skewed 60 and restores the header 3. -/
theorem thread_unthread_roundtrip_example :
    unthread 2 (threadAll c1mem [200, 300]) 100 60 100 = 3
    ∧ unthread 2 (threadAll c1mem [200, 300]) 100 60 200 = skew 60
    ∧ unthread 2 (threadAll c1mem [200, 300]) 100 60 300 = skew 60 := by
  have h := thread_unthread_roundtrip c1mem 100 60 [200, 300]
    (by decide) (by decide) (by decide) (by decide) (by decide) (by decide) 2 (by decide)
  exact ⟨by rw [h.1]; decide, h.2 200 (by decide), h.2 300 (by decide)⟩

/-- C2: the `unthread` postcondition.  Given an object whose header starts a
finite chain of distinct threaded field addresses (all above the sentinel)
ending in its original tag `t ≤ TAG_NULL`, `unthread` overwrites every
chained field with the skewed `new_loc`, stores the original tag back into
the object header, and touches nothing else. -/
theorem unthread_chain_spec (m : Mem) (obj new_loc t : Nat) (ls : List Nat)
    (hch : chainFrom m (m obj) ls t = true) (hnd : ls.Nodup)
    (hhi : ∀ l ∈ ls, TAG_NULL < l) (ht : t ≤ TAG_NULL) (hobj : obj ∉ ls)
    (fuel : Nat) (hfuel : ls.length ≤ fuel) :
    unthread fuel m obj new_loc obj = t
    ∧ (∀ l ∈ ls, unthread fuel m obj new_loc l = skew new_loc)
    ∧ (∀ a, a ∉ ls → a ≠ obj → unthread fuel m obj new_loc a = m a) := by
  obtain ⟨k, hk⟩ := Nat.exists_eq_add_of_le hfuel
  have hgo := unthreadGo_chain ls m (m obj) t new_loc k hch hnd hhi ht
  have hunfold : unthread fuel m obj new_loc =
      store (fun a => if a ∈ ls then skew new_loc else m a) obj t := by
    simp only [unthread, hk, hgo]
  rw [hunfold]
  refine ⟨store_self _ _ _, ?_, ?_⟩
  · intro l hl
    have hlo : l ≠ obj := fun he => hobj (he ▸ hl)
    rw [store_of_ne _ _ _ l hlo]
    simp [hl]
  · intro a ha hao
    rw [store_of_ne _ _ _ a hao]
    simp [ha]

def c2mem : Mem := fun a =>
  if a = 100 then 300 else if a = 300 then 200 else if a = 200 then 7 else 0

/-- C2 witness: the object at 100 carries the chain 300 → 200 → tag 7;
unthreading to 40 rewrites both chained fields to the skewed 40, restores
the tag 7, and leaves the unrelated address 500 unchanged. -/
theorem unthread_chain_spec_example :
    unthread 2 c2mem 100 40 100 = 7
    ∧ unthread 2 c2mem 100 40 300 = skew 40
    ∧ unthread 2 c2mem 100 40 200 = skew 40
    ∧ unthread 2 c2mem 100 40 500 = 0 := by
  have h := unthread_chain_spec c2mem 100 40 7 [300, 200]
    (by decide) (by decide) (by decide) (by decide) (by decide) 2 (by decide)
  exact ⟨h.1, h.2.1 300 (by decide), h.2.1 200 (by decide),
    by rw [h.2.2 500 (by decide) (by decide)]; decide⟩

/-- C7: sentinel discrimination.  Under the data-model invariant — every
threaded field address strictly exceeds `TAG_NULL` and the real tag lies in
the valid range `TAG_OBJECT .. TAG_NULL` — the magnitude test of `unthread`
walks exactly the chain (nothing outside the chain and the object header is
touched), and the final header value, the one checked by the debug
assertion at the end of `unthread`, is the original tag and lies within the
valid tag range. -/
theorem unthread_sentinel_assertion (m : Mem) (obj new_loc t : Nat) (ls : List Nat)
    (hch : chainFrom m (m obj) ls t = true) (hnd : ls.Nodup)
    (hhi : ∀ l ∈ ls, TAG_NULL < l) (htlo : TAG_OBJECT ≤ t) (hthi : t ≤ TAG_NULL)
    (hobj : obj ∉ ls) (fuel : Nat) (hfuel : ls.length ≤ fuel) :
    (unthreadGo fuel m new_loc (m obj)).2 = t
    ∧ TAG_OBJECT ≤ (unthreadGo fuel m new_loc (m obj)).2
    ∧ (unthreadGo fuel m new_loc (m obj)).2 ≤ TAG_NULL
    ∧ (∀ l ∈ ls, unthread fuel m obj new_loc l = skew new_loc)
    ∧ (∀ a, a ∉ ls → a ≠ obj → unthread fuel m obj new_loc a = m a) := by
  obtain ⟨k, hk⟩ := Nat.exists_eq_add_of_le hfuel
  have hgo := unthreadGo_chain ls m (m obj) t new_loc k hch hnd hhi hthi
  have h2 : (unthreadGo fuel m new_loc (m obj)).2 = t := by
    rw [hk, hgo]
  have hunfold : unthread fuel m obj new_loc =
      store (fun a => if a ∈ ls then skew new_loc else m a) obj t := by
    simp only [unthread, hk, hgo]
  refine ⟨h2, h2 ▸ htlo, h2 ▸ hthi, ?_, ?_⟩
  · intro l hl
    have hlo : l ≠ obj := fun he => hobj (he ▸ hl)
    rw [hunfold, store_of_ne _ _ _ l hlo]
    simp [hl]
  · intro a ha hao
    rw [hunfold, store_of_ne _ _ _ a hao]
    simp [ha]

/-- C7 witness: on the chain 300 → 200 → tag 7 of the object at 100, the
walk ends exactly at the tag 7, which lies in the valid tag range. -/
theorem unthread_sentinel_assertion_example :
    (unthreadGo 2 c2mem 40 (c2mem 100)).2 = 7
    ∧ TAG_OBJECT ≤ (unthreadGo 2 c2mem 40 (c2mem 100)).2
    ∧ (unthreadGo 2 c2mem 40 (c2mem 100)).2 ≤ TAG_NULL
    ∧ unthread 2 c2mem 100 40 300 = skew 40 := by
  have h := unthread_sentinel_assertion c2mem 100 40 7 [300, 200]
    (by decide) (by decide) (by decide) (by decide) (by decide) (by decide) 2 (by decide)
  exact ⟨h.1, h.2.1, h.2.2.1, h.2.2.2.1 300 (by decide)⟩

/-- The shared shape of `mark_fields` and `thread_fwd_pointers`: visit a list
of pointer fields and thread each field that satisfies `cond`. -/
def threadWhere (cond : Mem → Nat → Bool) (m : Mem) (fs : List Nat) : Mem :=
  fs.foldl (fun mm fa => if cond mm fa then thread mm fa else mm) m

theorem threadWhere_cons (cond : Mem → Nat → Bool) (m : Mem) (fa : Nat) (fs : List Nat) :
    threadWhere cond m (fa :: fs) =
      threadWhere cond (if cond m fa then thread m fa else m) fs := rfl

/-- Behaviour of a `threadWhere` pass when the fields are distinct, no field
doubles as the header of a visited target, and the targets are pairwise
distinct: a field satisfying the condition (evaluated on the initial
memory) ends up threaded onto its target — the field holds the old target
header and the target header holds the field address — a field failing the
condition is left unchanged, and every address that is neither a visited
field nor a target of one is untouched. -/
theorem threadWhere_spec (cond : Mem → Nat → Bool)
    (hcond : ∀ m₁ m₂ fa, m₁ fa = m₂ fa → cond m₁ fa = cond m₂ fa) :
    ∀ (fs : List Nat) (m : Mem), fs.Nodup →
    (∀ fa ∈ fs, unskew (m fa) ∉ fs) →
    ((fs.map fun fa => unskew (m fa)).Nodup) →
    (∀ fa ∈ fs,
      (cond m fa = true →
        threadWhere cond m fs fa = m (unskew (m fa))
        ∧ threadWhere cond m fs (unskew (m fa)) = fa)
      ∧ (cond m fa = false → threadWhere cond m fs fa = m fa))
    ∧ (∀ a, a ∉ fs → (∀ fa ∈ fs, a ≠ unskew (m fa)) →
        threadWhere cond m fs a = m a) := by
  intro fs
  induction fs with
  | nil =>
    intro m _ _ _
    exact ⟨fun fa hfa => absurd hfa (List.not_mem_nil fa), fun a _ _ => rfl⟩
  | cons fa fs ih =>
    intro m hnd htgt htnd
    have hfafs : fa ∉ fs := (List.nodup_cons.mp hnd).1
    have hndfs : fs.Nodup := (List.nodup_cons.mp hnd).2
    have htgtfa : unskew (m fa) ∉ fa :: fs := htgt fa (List.mem_cons_self _ _)
    have htf : unskew (m fa) ≠ fa := fun he => htgtfa (by simp [he])
    have htffs : unskew (m fa) ∉ fs := fun hm => htgtfa (List.mem_cons_of_mem _ hm)
    have htndh : unskew (m fa) ∉ fs.map fun g => unskew (m g) :=
      (List.nodup_cons.mp (by simpa using htnd)).1
    have htndt : (fs.map fun g => unskew (m g)).Nodup :=
      (List.nodup_cons.mp (by simpa using htnd)).2
    cases hc : cond m fa with
    | true =>
      have hstep : threadWhere cond m (fa :: fs) = threadWhere cond (thread m fa) fs := by
        rw [threadWhere_cons, hc]; simp
      set tgt := unskew (m fa) with htgtdef
      have hthr : thread m fa = store (store m fa (m tgt)) tgt fa := rfl
      set m1 := thread m fa with hm1
      have hm1eq : ∀ x, x ≠ fa → x ≠ tgt → m1 x = m x := by
        intro x hxf hxt
        rw [hthr, store_of_ne _ _ _ x hxt, store_of_ne _ _ _ x hxf]
      have hm1fa : m1 fa = m tgt := by
        rw [hthr, store_of_ne _ _ _ fa (Ne.symm htf), store_self]
      have hm1tgt : m1 tgt = fa := by rw [hthr, store_self]
      have hgm : ∀ g ∈ fs, m1 g = m g := by
        intro g hg
        exact hm1eq g (fun he => hfafs (he ▸ hg)) (fun he => htffs (he ▸ hg))
      have hmapeq : (fs.map fun g => unskew (m1 g)) = fs.map fun g => unskew (m g) :=
        List.map_congr_left (fun g hg => by rw [hgm g hg])
      have ihh := ih m1 hndfs
        (fun g hg => by rw [hgm g hg]; exact fun hm =>
          (htgt g (List.mem_cons_of_mem _ hg)) (List.mem_cons_of_mem _ hm))
        (by rw [hmapeq]; exact htndt)
      obtain ⟨ihA, ihB⟩ := ihh
      have hMfa : threadWhere cond m1 fs fa = m tgt := by
        rw [ihB fa hfafs (fun g hg => by
          rw [hgm g hg]
          exact fun he => (htgt g (List.mem_cons_of_mem _ hg)) (he ▸ List.mem_cons_self fa fs)),
          hm1fa]
      have hMtgt : threadWhere cond m1 fs tgt = fa := by
        rw [ihB tgt htffs (fun g hg => by
          rw [hgm g hg]
          exact fun he => htndh (he ▸ (List.mem_map_of_mem _ hg))), hm1tgt]
      constructor
      · intro x hx
        rcases List.mem_cons.mp hx with hxfa | hxfs
        · subst hxfa
          refine ⟨fun _ => ⟨?_, ?_⟩, fun hcf => ?_⟩
          · rw [hstep]; exact hMfa
          · rw [hstep]; exact hMtgt
          · rw [hc] at hcf; exact absurd hcf (by simp)
        · have hxne : x ≠ fa := fun he => hfafs (he ▸ hxfs)
          have hxnt : x ≠ tgt := fun he => htffs (he ▸ hxfs)
          have hcx : cond m1 x = cond m x := hcond m1 m x (hgm x hxfs)
          have hux : unskew (m1 x) = unskew (m x) := by rw [hgm x hxfs]
          have htx : unskew (m x) ≠ fa := fun he =>
            (htgt x (List.mem_cons_of_mem _ hxfs)) (he ▸ List.mem_cons_self fa fs)
          have htxt : unskew (m x) ≠ tgt := fun he =>
            htndh (he ▸ (List.mem_map_of_mem _ hxfs))
          refine ⟨fun hct => ?_, fun hcf => ?_⟩
          · obtain ⟨h1, h2⟩ := (ihA x hxfs).1 (by rw [hcx]; exact hct)
            rw [hux] at h1 h2
            rw [hstep]
            exact ⟨by rw [h1]; exact hm1eq _ htx htxt, h2⟩
          · have h := (ihA x hxfs).2 (by rw [hcx]; exact hcf)
            rw [hstep, h]
            exact hgm x hxfs
      · intro a ha hat
        have hanf : a ∉ fs := fun hm => ha (List.mem_cons_of_mem _ hm)
        have hanfa : a ≠ fa := fun he => ha (he ▸ List.mem_cons_self fa fs)
        have hant : a ≠ tgt := hat fa (List.mem_cons_self _ _)
        rw [hstep, ihB a hanf (fun g hg => by
          rw [hgm g hg]; exact hat g (List.mem_cons_of_mem _ hg))]
        exact hm1eq a hanfa hant
    | false =>
      have hstep : threadWhere cond m (fa :: fs) = threadWhere cond m fs := by
        rw [threadWhere_cons, hc]; simp
      have ihh := ih m hndfs
        (fun g hg => fun hm =>
          (htgt g (List.mem_cons_of_mem _ hg)) (List.mem_cons_of_mem _ hm))
        htndt
      obtain ⟨ihA, ihB⟩ := ihh
      constructor
      · intro x hx
        rcases List.mem_cons.mp hx with hxfa | hxfs
        · subst hxfa
          refine ⟨fun hct => ?_, fun _ => ?_⟩
          · rw [hc] at hct; exact absurd hct (by simp)
          · rw [hstep]
            exact ihB x hfafs (fun g hg => fun he =>
              (htgt g (List.mem_cons_of_mem _ hg)) (he ▸ List.mem_cons_self x fs))
        · exact ⟨fun hct => by rw [hstep]; exact (ihA x hxfs).1 hct,
            fun hcf => by rw [hstep]; exact (ihA x hxfs).2 hcf⟩
      · intro a ha hat
        rw [hstep]
        exact ihB a (fun hm => ha (List.mem_cons_of_mem _ hm))
          (fun g hg => hat g (List.mem_cons_of_mem _ hg))

/-- A memory page of the space, carrying its content bounds and the
optional liveness-bitmap handle attached to it (modelled from the spec:
the page provider is external to the excerpt). -/
structure Page where
  contents_start : Nat
  page_end : Nat
  bitmap : Option (List Bool)
deriving DecidableEq

/-- The collector state threaded through the marking routines: the pages of
the space (each carrying its bitmap), the heap memory, and the mark
worklist of (address, tag) pairs. -/
structure GcState where
  pages : List Page
  mem : Mem
  stack : List (Nat × Nat)

/-- `mark_object` (mark_compact.rs lines 154-175).  The compiled body reads
the tag of the object and resolves its page and bitmap handle, but all the
marking steps (lines 166-174: the already-marked test, the bit set and the
worklist push) are commented out in the source, so the function returns
with no effect at all on the collector state. -/
def mark_object (st : GcState) (_obj : Nat) : GcState := st

/-- `mark_fields` (mark_compact.rs lines 183-199): for every pointer field
of the visited object (field addresses supplied by the modelled field
visitor), read the field, mark its target, and thread the field exactly
when the raw target address is strictly below the object address. -/
def mark_fields (st : GcState) (obj : Nat) (fieldAddrs : List Nat) : GcState :=
  fieldAddrs.foldl
    (fun s fa =>
      let field_value := s.mem fa
      let s1 := mark_object s field_value
      if unskew field_value < obj then { s1 with mem := thread s1.mem fa } else s1)
    st

theorem mark_fields_as_threadWhere (obj : Nat) (fs : List Nat) : ∀ st : GcState,
    mark_fields st obj fs =
      { st with mem := threadWhere (fun mm fa => decide (unskew (mm fa) < obj)) st.mem fs } := by
  induction fs with
  | nil => intro st; simp [mark_fields, threadWhere]
  | cons fa fs ih =>
    intro st
    by_cases h : unskew (st.mem fa) < obj
    · have hstep : mark_fields st obj (fa :: fs) =
          mark_fields { st with mem := thread st.mem fa } obj fs := by
        simp only [mark_fields, List.foldl_cons, mark_object, if_pos h]
      rw [hstep, ih]
      simp [threadWhere_cons, h]
    · have hstep : mark_fields st obj (fa :: fs) = mark_fields st obj fs := by
        simp only [mark_fields, List.foldl_cons, mark_object, if_neg h]
      rw [hstep, ih]
      simp [threadWhere_cons, h]

/-- `thread_fwd_pointers` (mark_compact.rs lines 240-247): visit the pointer
fields of the object and thread exactly those whose raw target address is
strictly greater than the address of the field itself. -/
def thread_fwd_pointers (m : Mem) (fieldAddrs : List Nat) : Mem :=
  fieldAddrs.foldl (fun mm fa => if unskew (mm fa) > fa then thread mm fa else mm) m

theorem thread_fwd_pointers_as_threadWhere (fs : List Nat) : ∀ m : Mem,
    thread_fwd_pointers m fs =
      threadWhere (fun mm fa => decide (unskew (mm fa) > fa)) m fs := by
  induction fs with
  | nil => intro m; rfl
  | cons fa fs ih =>
    intro m
    have hstep : thread_fwd_pointers m (fa :: fs) =
        thread_fwd_pointers (if unskew (m fa) > fa then thread m fa else m) fs := rfl
    rw [hstep, ih, threadWhere_cons]
    by_cases h : unskew (m fa) > fa <;> simp [h]

/-- C3 (amended): while draining the worklist, a pointer field of the
object being visited is threaded immediately if and only if its raw target
address is strictly less than the address of the object itself; a field
whose target address is greater than or equal to the object address —
self-references included, since a self-reference has target address equal
to the object address — is never threaded during marking, and addresses
that are neither visited fields nor their targets are untouched. -/
theorem mark_fields_threads_iff_backward (st : GcState) (obj : Nat) (fs : List Nat)
    (hnd : fs.Nodup)
    (htgt : ∀ fa ∈ fs, unskew (st.mem fa) ∉ fs)
    (htnd : (fs.map fun fa => unskew (st.mem fa)).Nodup) :
    (∀ fa ∈ fs, unskew (st.mem fa) < obj →
        (mark_fields st obj fs).mem fa = st.mem (unskew (st.mem fa))
        ∧ (mark_fields st obj fs).mem (unskew (st.mem fa)) = fa)
    ∧ (∀ fa ∈ fs, ¬ unskew (st.mem fa) < obj →
        (mark_fields st obj fs).mem fa = st.mem fa)
    ∧ (∀ a, a ∉ fs → (∀ fa ∈ fs, a ≠ unskew (st.mem fa)) →
        (mark_fields st obj fs).mem a = st.mem a) := by
  have hcond : ∀ (m₁ m₂ : Mem) (fa : Nat), m₁ fa = m₂ fa →
      decide (unskew (m₁ fa) < obj) = decide (unskew (m₂ fa) < obj) := by
    intro m₁ m₂ fa h; rw [h]
  obtain ⟨hA, hB⟩ := threadWhere_spec (fun mm fa => decide (unskew (mm fa) < obj))
    hcond fs st.mem hnd htgt htnd
  have hmem : (mark_fields st obj fs).mem =
      threadWhere (fun mm fa => decide (unskew (mm fa) < obj)) st.mem fs := by
    rw [mark_fields_as_threadWhere obj fs st]
  refine ⟨?_, ?_, ?_⟩
  · intro fa hfa h
    obtain ⟨h1, h2⟩ := (hA fa hfa).1 (by simpa using h)
    rw [hmem]
    exact ⟨h1, h2⟩
  · intro fa hfa h
    rw [hmem]
    exact (hA fa hfa).2 (by simpa using h)
  · intro a ha hat
    rw [hmem]
    exact hB a ha hat

def c3mem : Mem := fun a =>
  if a = 100 then 3 else if a = 104 then skew 100 else 0

def c3state : GcState := { pages := [], mem := c3mem, stack := [] }

/-- C3 counterexample: the claim, following the spec, counts
self-references among the backward references that are threaded during
marking; but a self-referencing field (here the field at 104 inside the
object at 100, holding the skewed address of 100) is left completely
untouched by `mark_fields` — it is not threaded, and the object header is
not swapped. -/
theorem mark_fields_self_reference_not_threaded :
    (mark_fields c3state 100 [104]).mem 104 = skew 100
    ∧ (mark_fields c3state 100 [104]).mem 100 = 3 := by
  constructor <;> decide

def c3mem' : Mem := fun a =>
  if a = 100 then 5 else if a = 204 then skew 100 else if a = 208 then skew 300 else 0

def c3state' : GcState := { pages := [], mem := c3mem', stack := [] }

/-- C3 witness: visiting the object at 200 with fields at 204 (target 100,
backward: threaded) and 208 (target 300, forward: untouched). -/
theorem mark_fields_threads_iff_backward_example :
    (mark_fields c3state' 200 [204, 208]).mem 204 = 5
    ∧ (mark_fields c3state' 200 [204, 208]).mem 100 = 204
    ∧ (mark_fields c3state' 200 [204, 208]).mem 208 = skew 300 := by
  have h := mark_fields_threads_iff_backward c3state' 200 [204, 208]
    (by decide) (by decide) (by decide)
  obtain ⟨h1, h2⟩ := h.1 204 (by decide) (by decide)
  refine ⟨?_, ?_, ?_⟩
  · rw [show (5 : Nat) = c3state'.mem (unskew (c3state'.mem 204)) from by decide] at *
    exact h1
  · rw [show (204 : Nat) = (204 : Nat) from rfl]
    have := h2
    rw [show unskew (c3state'.mem 204) = 100 from by decide] at this
    exact this
  · exact (h.2.1 208 (by decide) (by decide)).trans (by decide)

/-- C6: after a live object has been moved to its new location,
`thread_fwd_pointers` threads exactly those of its pointer fields whose
current raw target address is strictly greater than the address of the
field itself; a field whose target is not beyond the field is left
unchanged, and addresses that are neither visited fields nor their targets
are untouched. -/
theorem thread_fwd_pointers_only_forward (m : Mem) (fs : List Nat)
    (hnd : fs.Nodup)
    (htgt : ∀ fa ∈ fs, unskew (m fa) ∉ fs)
    (htnd : (fs.map fun fa => unskew (m fa)).Nodup) :
    (∀ fa ∈ fs, fa < unskew (m fa) →
        thread_fwd_pointers m fs fa = m (unskew (m fa))
        ∧ thread_fwd_pointers m fs (unskew (m fa)) = fa)
    ∧ (∀ fa ∈ fs, ¬ fa < unskew (m fa) → thread_fwd_pointers m fs fa = m fa)
    ∧ (∀ a, a ∉ fs → (∀ fa ∈ fs, a ≠ unskew (m fa)) →
        thread_fwd_pointers m fs a = m a) := by
  have hcond : ∀ (m₁ m₂ : Mem) (fa : Nat), m₁ fa = m₂ fa →
      decide (unskew (m₁ fa) > fa) = decide (unskew (m₂ fa) > fa) := by
    intro m₁ m₂ fa h; rw [h]
  obtain ⟨hA, hB⟩ := threadWhere_spec (fun mm fa => decide (unskew (mm fa) > fa))
    hcond fs m hnd htgt htnd
  have hmem : thread_fwd_pointers m fs =
      threadWhere (fun mm fa => decide (unskew (mm fa) > fa)) m fs :=
    thread_fwd_pointers_as_threadWhere fs m
  refine ⟨?_, ?_, ?_⟩
  · intro fa hfa h
    obtain ⟨h1, h2⟩ := (hA fa hfa).1 (by simpa using h)
    rw [hmem]
    exact ⟨h1, h2⟩
  · intro fa hfa h
    rw [hmem]
    exact (hA fa hfa).2 (by simpa using h)
  · intro a ha hat
    rw [hmem]
    exact hB a ha hat

def c6mem : Mem := fun a =>
  if a = 200 then 6 else if a = 104 then skew 200 else if a = 108 then skew 50 else 0

/-- C6 witness: the object at 100 has a forward field at 104 (target 200:
threaded) and a backward field at 108 (target 50: untouched). -/
theorem thread_fwd_pointers_only_forward_example :
    thread_fwd_pointers c6mem [104, 108] 104 = 6
    ∧ thread_fwd_pointers c6mem [104, 108] 200 = 104
    ∧ thread_fwd_pointers c6mem [104, 108] 108 = skew 50 := by
  have h := thread_fwd_pointers_only_forward c6mem [104, 108]
    (by decide) (by decide) (by decide)
  obtain ⟨h1, h2⟩ := h.1 104 (by decide) (by decide)
  refine ⟨?_, ?_, ?_⟩
  · exact h1.trans (by decide)
  · have := h2
    rw [show unskew (c6mem 104) = 200 from by decide] at this
    exact this
  · exact (h.2.1 108 (by decide) (by decide)).trans (by decide)

/-- Modelled from the spec: the machine word size in bytes (`constants.rs`
is external to the excerpt; the runtime uses 32-bit words). -/
def WORD_SIZE : Nat := 4

/-- Modelled from the spec: `pointer_to_dynamic_heap` (`visitor.rs` is
external to the excerpt) — a root field points into the dynamic (movable)
heap iff its pointer resolves to an address at or above the heap base. -/
def pointer_to_dynamic_heap (m : Mem) (field_addr heap_base : Nat) : Bool :=
  decide (heap_base ≤ unskew (m field_addr))

/-- Modelled from the spec: a root cell (`MutBox`) holds exactly one
pointer field, one word after its header. -/
def mutbox_field (mutbox : Nat) : Nat := mutbox + WORD_SIZE

/-- `mark_root_mutbox_fields` (mark_compact.rs lines 136-152): if the
single field of the root cell points into the dynamic heap, mark its
target and then thread the field; otherwise leave everything unchanged. -/
def mark_root_mutbox_fields (st : GcState) (mutbox heap_base : Nat) : GcState :=
  let field_addr := mutbox_field mutbox
  if pointer_to_dynamic_heap st.mem field_addr heap_base then
    let st1 := mark_object st (st.mem field_addr)
    { st1 with mem := thread st1.mem field_addr }
  else st

/-- `mark_static_roots` (mark_compact.rs lines 117-133): walk the static
root array (modelled as the list of its skewed entries, the array object
layout being external to the excerpt), unskew each entry and process the
root cell; the debug assertions on the tag and the staticness of the cells
are no-ops in release builds and are elided. -/
def mark_static_roots (st : GcState) (root_array : List Nat) (heap_base : Nat) : GcState :=
  root_array.foldl (fun s r => mark_root_mutbox_fields s (unskew r) heap_base) st

/-- The worklist drain loop `mark_stack` (mark_compact.rs lines 177-181),
indexed by fuel: pop an entry and visit the fields of the popped object
until the worklist is empty.  (With the stubbed `mark_object`, nothing is
ever pushed back, so fuel equal to the stack length drains it.) -/
def mark_stack (visit : Nat → Nat → List Nat) : Nat → GcState → GcState
  | 0, st => st
  | fuel + 1, st =>
    match st.stack with
    | [] => st
    | (obj, tag) :: rest =>
      mark_stack visit fuel (mark_fields { st with stack := rest } obj (visit obj tag))

/-- Modelled from the spec: `Bitmap::new(word_capacity)` (`bitmap.rs` is
external to the excerpt) allocates a zeroed bit-vector covering the given
number of bits. -/
def Bitmap.new (word_capacity : Nat) : List Bool := List.replicate word_capacity false

/-- The bitmap-allocation loop of `mark_compact` (lines 72-81): every page
of the space gets a fresh zeroed bitmap sized to the word capacity of its
content region. -/
def allocate_bitmaps (space : List Page) : List Page :=
  space.map fun p =>
    { p with bitmap := some (Bitmap.new ((p.page_end - p.contents_start) / WORD_SIZE)) }

/-- The bitmap-free loop of `mark_compact` (lines 106-114): detach and free
every page bitmap. -/
def free_bitmaps (space : List Page) : List Page :=
  space.map fun p => { p with bitmap := none }

/-- `update_refs` (mark_compact.rs lines 210-238): the compiled body is
`todo!()`, which traps unconditionally before touching the heap; the
intended single-pass compaction algorithm exists only inside a comment
block in the source.  The trap is modelled as `none`. -/
def update_refs (_space : List Page) (_mem : Mem) (_heap_base : Nat) : Option Mem := none

/-- `mark_compact` (mark_compact.rs lines 65-115): allocate bitmaps, mark
the static roots, mark and thread the continuation-table root if it points
into the dynamic heap, drain the mark worklist, run `update_refs`, then
free the worklist and the page bitmaps.  `none` means the cycle trapped
before returning. -/
def mark_compact (visit : Nat → Nat → List Nat) (space : List Page) (m : Mem)
    (heap_base : Nat) (static_roots : List Nat) (continuation_table_ptr_loc : Nat) :
    Option (List Page × Mem) :=
  let space1 := allocate_bitmaps space
  let st0 : GcState := { pages := space1, mem := m, stack := [] }
  let st1 := mark_static_roots st0 static_roots heap_base
  let st2 :=
    if heap_base ≤ unskew (st1.mem continuation_table_ptr_loc) then
      let st' := mark_object st1 (st1.mem continuation_table_ptr_loc)
      { st' with mem := thread st'.mem continuation_table_ptr_loc }
    else st1
  let st3 := mark_stack visit st2.stack.length st2
  match update_refs st3.pages st3.mem heap_base with
  | none => none
  | some mem' => some (free_bitmaps st3.pages, mem')

/-- `compacting_gc_internal` (mark_compact.rs lines 41-63): run the
mark-compact cycle; the two statistics callbacks are accepted (as the
underscore-prefixed parameters of the source indicate) but the body never
calls them — the stats update is a TODO in the source. -/
def compacting_gc_internal {NoteLiveSize NoteReclaimed : Type}
    (visit : Nat → Nat → List Nat) (space : List Page) (m : Mem)
    (heap_base : Nat) (static_roots : List Nat) (continuation_table_ptr_loc : Nat)
    (_note_live_size : Nat → NoteLiveSize) (_note_reclaimed : Nat → NoteReclaimed) :
    Option (List Page × Mem) :=
  mark_compact visit space m heap_base static_roots continuation_table_ptr_loc

/-- C4 (code bug): the compiled `mark_object` has its whole marking body
commented out (mark_compact.rs lines 166-174): on every input it neither
tests nor sets any liveness bit and pushes nothing onto the mark worklist
— it returns the collector state unchanged, contrary to the documented
mark protocol the claim describes. -/
theorem mark_object_is_noop (st : GcState) (obj : Nat) :
    mark_object st obj = st
    ∧ (mark_object st obj).pages = st.pages
    ∧ (mark_object st obj).stack = st.stack :=
  ⟨rfl, rfl, rfl⟩

/-- C5 (code bug): the compiled `update_refs` is `todo!()` — it traps on
every input and performs no compaction at all, contrary to the single
forward bitmap pass the claim describes. -/
theorem update_refs_traps (space : List Page) (m : Mem) (heap_base : Nat) :
    update_refs space m heap_base = none := rfl

def c8mem : Mem := fun a =>
  if a = 24 then skew 100 else if a = 100 then 3 else 0

def c8page : Page := { contents_start := 64, page_end := 128, bitmap := some (Bitmap.new 16) }

def c8state : GcState := { pages := [c8page], mem := c8mem, stack := [] }

def c8mem' : Mem := fun a => if a = 24 then skew 30 else 0

def c8state' : GcState := { pages := [c8page], mem := c8mem', stack := [] }

/-- C8 (code bug): for a static root cell at 20 whose field (at 24) points
at the dynamic-heap object 100 (heap base 64), `mark_root_mutbox_fields`
does thread the field — the field receives the object header 3 and the
object header receives the field address 24 — but nothing is marked: the
page bitmaps and the worklist are unchanged, because `mark_object` is a
stub.  A root cell whose field points below the heap base (here to 30) is
left fully unchanged, as the claim states. -/
theorem mark_root_mutbox_fields_threads_without_marking :
    (mark_root_mutbox_fields c8state 20 64).mem 24 = 3
    ∧ (mark_root_mutbox_fields c8state 20 64).mem 100 = 24
    ∧ (mark_root_mutbox_fields c8state 20 64).pages = c8state.pages
    ∧ (mark_root_mutbox_fields c8state 20 64).stack = []
    ∧ mark_root_mutbox_fields c8state' 20 64 = c8state' :=
  ⟨by decide, by decide, rfl, rfl, rfl⟩

/-- C9 (code bug): a cycle does allocate, before any marking, a fresh
zeroed bitmap sized to the word capacity of the page content region for
every page of the space; but the compiled cycle then traps inside
`update_refs` (`todo!()`) on every execution, so the teardown — freeing
the worklist and detaching and freeing the bitmaps — is unreachable and
the cycle never returns. -/
theorem mark_compact_allocates_bitmaps_then_traps
    (visit : Nat → Nat → List Nat) (space : List Page) (m : Mem)
    (heap_base : Nat) (static_roots : List Nat) (continuation_table_ptr_loc : Nat) :
    List.Forall₂ (fun p q =>
        q.contents_start = p.contents_start ∧ q.page_end = p.page_end
        ∧ q.bitmap = some (Bitmap.new ((p.page_end - p.contents_start) / WORD_SIZE)))
      space (allocate_bitmaps space)
    ∧ mark_compact visit space m heap_base static_roots continuation_table_ptr_loc = none := by
  constructor
  · induction space with
    | nil => exact List.Forall₂.nil
    | cons p ps ih => exact List.Forall₂.cons ⟨rfl, rfl, rfl⟩ ih
  · rfl

/-- C10: `compacting_gc_internal` receives the two statistics callbacks but
never invokes either of them (the stats update is a TODO in the source),
so its result is identical for every choice of the two callbacks. -/
theorem compacting_gc_internal_ignores_callbacks
    {A B A' B' : Type} (visit : Nat → Nat → List Nat) (space : List Page) (m : Mem)
    (heap_base : Nat) (static_roots : List Nat) (continuation_table_ptr_loc : Nat)
    (f : Nat → A) (g : Nat → B) (f' : Nat → A') (g' : Nat → B') :
    compacting_gc_internal visit space m heap_base static_roots
        continuation_table_ptr_loc f g
      = compacting_gc_internal visit space m heap_base static_roots
        continuation_table_ptr_loc f' g' := rfl

end MarkCompact
